import Mathlib

/-!
Verification of the group hierarchy resolver of `bundlewrap/group.py`:
the subgroup closure with cycle detection, pattern-derived subgroup
expansion, membership/state hashing, and `Group` construction.

Python objects are embedded shallowly:

* a compiled regular expression is embedded as its match predicate
  `String → Bool` (the result of `pattern.search(s) is not None`);
* `Group` instances carry an `objId : Nat` field modelling Python object
  identity: the class defines `__lt__` but not `__eq__`, so `==` between
  groups is inherited object identity, which the field makes explicit;
* the repository back-reference `self.repo` becomes an explicit `Repo`
  argument holding the group and node collections;
* raised exceptions become `Except` errors; the recursive generator
  `_check_subgroup_names` becomes a fuel-indexed recursive function whose
  fuel counts nested stack frames, with a dedicated `outOfFuel` error that
  the termination theorems prove unreachable for sufficient fuel.
-/

namespace BW

/-- A node of the repository, as consumed by `group.py`: its name, its
membership test `node.in_group(name)`, and its opaque state digest
`node.hash()`. -/
structure Node where
  name : String
  inGroup : String → Bool
  nodeHash : String

/-- A constructed `Group` instance (the fields of `Group.__init__` that the
resolver and hash engine read).  `objId` models Python object identity:
`Group` defines `__lt__` only, so `group != self` at `group.py:145` compares
identities, not names. -/
structure Group where
  objId : Nat
  name : String
  bundle_names : List String
  immediate_subgroup_names : List String
  immediate_subgroup_patterns : List (String → Bool)
  member_patterns : List (String → Bool)
  metadata : List (String × String)

/-- The external registry: the collections `self.repo.groups` and
`self.repo.nodes` that `group.py` iterates. -/
structure Repo where
  groups : List Group
  nodes : List Node

/-- The registry lookup `repo.get_group(name)`; `none` models the
`NoSuchGroup` exception. -/
def getGroup (repo : Repo) (name : String) : Option Group :=
  repo.groups.find? (fun g => g.name == name)

/-- `Group._subgroup_names_from_patterns` (group.py:141-146): for each
compiled pattern, the names of all registry groups matching it, the group
itself excluded by object identity (`group != self`). -/
def subgroupNamesFromPatterns (repo : Repo) (g : Group) : List String :=
  (g.immediate_subgroup_patterns.map (fun pat =>
    ((repo.groups.filter (fun h => pat h.name && !(h.objId == g.objId))).map
      (fun h => h.name)))).flatten

/-- The candidate set `set(list(self.immediate_subgroup_names) +
list(self._subgroup_names_from_patterns))` built at group.py:152-155 and
again at group.py:212-215; the Python `set` is modelled as list
deduplication (its iteration order is unspecified anyway). -/
def candidateNames (repo : Repo) (g : Group) : List String :=
  (g.immediate_subgroup_names ++ subgroupNamesFromPatterns repo g).dedup

/-- Loop body of `_build_error_chain` (group.py:67-70): append `v` exactly
when membership of the loop node in the chain so far differs from `v`
being the loop node. -/
def buildErrorChainGo (loopNode lastNode : String) :
    List String → List String → List String
  | acc, [] => acc ++ [lastNode, loopNode]
  | acc, v :: rest =>
    if (decide (loopNode ∈ acc)) != (loopNode == v) then
      buildErrorChainGo loopNode lastNode (acc ++ [v]) rest
    else
      buildErrorChainGo loopNode lastNode acc rest

/-- `_build_error_chain(loop_node, last_node, nodes_in_between)`
(group.py:56-73). -/
def buildErrorChain (loopNode lastNode : String)
    (nodesInBetween : List String) : List String :=
  buildErrorChainGo loopNode lastNode [] nodesInBetween

/-- Errors that `_check_subgroup_names` can raise: the missing-subgroup
`RepositoryError` (group.py:160-166), the subgroup-cycle `RepositoryError`
carrying the diagnostic chain (group.py:177-183), and the fuel marker of
the embedding (unreachable for sufficient fuel, see the termination
theorems). -/
inductive CheckErr where
  | outOfFuel : CheckErr
  | noSuchGroup (group subgroup : String) : CheckErr
  | cycle (name : String) (chain : List String) : CheckErr
deriving DecidableEq

/-- The loop `for name in set(...)` of `_check_subgroup_names`
(group.py:152-183), parametrised by the recursive call `recurse` used at
group.py:167-169.  Yielded names are collected in generator order. -/
def checkCandidates (repo : Repo)
    (recurse : Group → List String → Except CheckErr (List String))
    (g : Group) (visited : List String) :
    List String → Except CheckErr (List String)
  | [] => .ok []
  | n :: rest =>
    if n ∈ visited then
      .error (.cycle n (buildErrorChain n g.name visited))
    else
      match getGroup repo n with
      | none => .error (.noSuchGroup g.name n)
      | some sub =>
        match recurse sub (visited ++ [g.name]) with
        | .error e => .error e
        | .ok inner =>
          match checkCandidates repo recurse g visited rest with
          | .error e => .error e
          | .ok more => .ok (inner ++ more)

/-- `Group._check_subgroup_names(visited_names)` (group.py:148-185): process
every candidate subgroup name, recursing with the path extended by the
current group's name, then yield the current group's own name if it is not
on the path.  The fuel argument bounds the depth of nested calls: a call
with fuel 0 can still answer when it has no candidates to process, but
cannot descend. -/
def checkSubgroupNames (repo : Repo) :
    Nat → Group → List String → Except CheckErr (List String)
  | 0, g, visited =>
    match candidateNames repo g with
    | [] => .ok (if g.name ∈ visited then [] else [g.name])
    | _ :: _ => .error .outOfFuel
  | fuel+1, g, visited =>
    match checkCandidates repo (checkSubgroupNames repo fuel) g visited
        (candidateNames repo g) with
    | .error e => .error e
    | .ok collected =>
      .ok (collected ++ (if g.name ∈ visited then [] else [g.name]))

/-- Fuel budget large enough for any traversal of the registry (each group
name can occur at most twice on the visited path, see the measure
lemmas). -/
def fuelBound (repo : Repo) : Nat :=
  2 * repo.groups.length + 2

/-- The name-collection phase of `Group.subgroups` (group.py:199-205):
`self._check_subgroup_names([self.name])`, seeded with the group's own
name. -/
def subgroupsNames (repo : Repo) (g : Group) :
    Except CheckErr (List String) :=
  checkSubgroupNames repo (fuelBound repo) g [g.name]

/-- The subgroup edge relation of the registry: `a → b` when the group
looked up under `a` lists `b` among its explicit or pattern-derived
subgroup names. -/
def subgroupEdge (repo : Repo) (a b : String) : Prop :=
  ∃ g, getGroup repo a = some g ∧ b ∈ candidateNames repo g

/-- Hypothesis that every explicit or pattern-derived subgroup reference of
every reachable group resolves in the registry (no `NoSuchGroup`). -/
def resolvesAll (repo : Repo) : Prop :=
  ∀ a g, getGroup repo a = some g →
    ∀ c ∈ candidateNames repo g, (getGroup repo c).isSome

/-- The set of group names present in the registry. -/
def namesFinset (repo : Repo) : Finset String :=
  (repo.groups.map (fun g => g.name)).toFinset

/-- Termination measure for the traversal: registry names not yet visited
count twice, plus one more step when the current group's name is already on
the path. -/
def checkMeasure (repo : Repo) (g : Group) (visited : List String) : Nat :=
  2 * (namesFinset repo \ visited.toFinset).card +
    (if g.name ∈ visited then 1 else 0)

theorem getGroup_name {repo : Repo} {a : String} {g : Group}
    (h : getGroup repo a = some g) : g.name = a := by
  have := List.find?_some h
  simpa using this

theorem getGroup_mem {repo : Repo} {a : String} {g : Group}
    (h : getGroup repo a = some g) : g ∈ repo.groups :=
  List.mem_of_find?_eq_some h

theorem getGroup_self {repo : Repo} {a : String} {g : Group}
    (h : getGroup repo a = some g) : getGroup repo g.name = some g := by
  rwa [getGroup_name h]

theorem buildErrorChainGo_append (loopNode lastNode : String) :
    ∀ (l acc : List String),
      ∃ t, buildErrorChainGo loopNode lastNode acc l = acc ++ t := by
  intro l
  induction l with
  | nil => intro acc; exact ⟨[lastNode, loopNode], rfl⟩
  | cons v rest ih =>
    intro acc
    by_cases hc : ((decide (loopNode ∈ acc)) != (loopNode == v)) = true
    · obtain ⟨t, ht⟩ := ih (acc ++ [v])
      exact ⟨[v] ++ t, by simp [buildErrorChainGo, hc, ht]⟩
    · obtain ⟨t, ht⟩ := ih acc
      refine ⟨t, ?_⟩
      simp only [buildErrorChainGo]
      rw [if_neg hc]
      exact ht

theorem buildErrorChainGo_last (loopNode lastNode : String) :
    ∀ (l acc : List String),
      (buildErrorChainGo loopNode lastNode acc l).getLast? = some loopNode := by
  intro l
  induction l with
  | nil =>
    intro acc
    show ((acc ++ [lastNode, loopNode]).getLast? = _)
    rw [show acc ++ [lastNode, loopNode] = (acc ++ [lastNode]) ++ [loopNode] by
      simp]
    exact List.getLast?_concat _
  | cons v rest ih =>
    intro acc
    by_cases hc : ((decide (loopNode ∈ acc)) != (loopNode == v)) = true
    · simp only [buildErrorChainGo]
      rw [if_pos hc]
      exact ih _
    · simp only [buildErrorChainGo]
      rw [if_neg hc]
      exact ih _

theorem buildErrorChain_last (loopNode lastNode : String)
    (l : List String) :
    (buildErrorChain loopNode lastNode l).getLast? = some loopNode :=
  buildErrorChainGo_last loopNode lastNode l []

theorem buildErrorChain_head {loopNode : String} (lastNode : String)
    {l : List String} (hmem : loopNode ∈ l) :
    (buildErrorChain loopNode lastNode l).head? = some loopNode := by
  unfold buildErrorChain
  induction l with
  | nil => cases hmem
  | cons v rest ih =>
    by_cases hv : loopNode = v
    · have hc : ((decide (loopNode ∈ ([] : List String))) !=
          (loopNode == v)) = true := by
        simp [hv]
      simp only [buildErrorChainGo]
      rw [if_pos hc]
      obtain ⟨t, ht⟩ := buildErrorChainGo_append loopNode lastNode rest
        ([] ++ [v])
      rw [ht]
      simp [hv]
    · have hc : ¬ ((decide (loopNode ∈ ([] : List String))) !=
          (loopNode == v)) = true := by
        simp [hv]
      simp only [buildErrorChainGo]
      rw [if_neg hc]
      have hmem' : loopNode ∈ rest := by
        rcases List.mem_cons.mp hmem with h | h
        · exact absurd h hv
        · exact h
      exact ih hmem'

theorem buildErrorChainGo_after (loopNode lastNode : String) :
    ∀ (l acc : List String), loopNode ∈ acc → loopNode ∉ l →
      buildErrorChainGo loopNode lastNode acc l =
        acc ++ l ++ [lastNode, loopNode] := by
  intro l
  induction l with
  | nil => intro acc _ _; simp [buildErrorChainGo]
  | cons v rest ih =>
    intro acc hacc hnl
    have hv : loopNode ≠ v := fun h => hnl (h ▸ List.mem_cons_self v rest)
    have hc : ((decide (loopNode ∈ acc)) != (loopNode == v)) = true := by
      simp [hacc, hv]
    simp only [buildErrorChainGo]
    rw [if_pos hc]
    have hrest : loopNode ∉ rest := fun h => hnl (List.mem_cons_of_mem v h)
    rw [ih (acc ++ [v]) (List.mem_append_left _ hacc) hrest]
    simp

/-- C3: for every loop node, last node and duplicate-free list of names
containing the loop node, the toggle-based `_build_error_chain` returns
exactly the suffix of the list starting at the first occurrence of the loop
node, followed by the last node, followed by the loop node again: the
non-cyclic prefix is discarded. -/
theorem build_error_chain_slices {loopNode lastNode : String}
    {nodesInBetween : List String} (hnd : nodesInBetween.Nodup)
    (hmem : loopNode ∈ nodesInBetween) :
    buildErrorChain loopNode lastNode nodesInBetween =
      nodesInBetween.dropWhile (fun x => x != loopNode) ++
        [lastNode, loopNode] := by
  unfold buildErrorChain
  induction nodesInBetween with
  | nil => cases hmem
  | cons v rest ih =>
    by_cases hv : loopNode = v
    · have hc : ((decide (loopNode ∈ ([] : List String))) !=
          (loopNode == v)) = true := by simp [hv]
      simp only [buildErrorChainGo]
      rw [if_pos hc]
      have hrest : loopNode ∉ rest := by
        subst hv
        exact (List.nodup_cons.mp hnd).1
      rw [buildErrorChainGo_after loopNode lastNode rest ([] ++ [v])
        (by simp [hv]) hrest]
      rw [List.dropWhile_cons]
      have : ((v != loopNode) = true) = False := by simp [hv.symm]
      simp [hv.symm]
    · have hc : ¬ ((decide (loopNode ∈ ([] : List String))) !=
          (loopNode == v)) = true := by simp [hv]
      simp only [buildErrorChainGo]
      rw [if_neg hc]
      have hmem' : loopNode ∈ rest := by
        rcases List.mem_cons.mp hmem with h | h
        · exact absurd h hv
        · exact h
      rw [ih (List.nodup_cons.mp hnd).2 hmem']
      rw [List.dropWhile_cons]
      have hvb : (v != loopNode) = true := by
        simp [Ne.symm hv]
      simp [hvb]

/-- Witness for C3 at a concrete input: the prefix "P" before the first
occurrence of the loop node "A" is discarded. -/
theorem build_error_chain_slices_witness :
    (["P", "A", "B"] : List String).Nodup ∧ "A" ∈ ["P", "A", "B"] ∧
      buildErrorChain "A" "C" ["P", "A", "B"] =
        (["P", "A", "B"] : List String).dropWhile (fun x => x != "A") ++
          ["C", "A"] :=
  ⟨by decide, by decide, build_error_chain_slices (by decide) (by decide)⟩

theorem checkCandidates_ok_forall {repo : Repo}
    {recurse : Group → List String → Except CheckErr (List String)}
    {g : Group} {visited : List String} :
    ∀ {pending l},
      checkCandidates repo recurse g visited pending = .ok l →
      ∀ c ∈ pending, c ∉ visited ∧
        ∃ sub l', getGroup repo c = some sub ∧
          recurse sub (visited ++ [g.name]) = .ok l' ∧ ∀ n ∈ l', n ∈ l := by
  intro pending
  induction pending with
  | nil => intro l _ c hc; cases hc
  | cons n rest ih =>
    intro l h c hc
    simp only [checkCandidates] at h
    by_cases hnv : n ∈ visited
    · rw [if_pos hnv] at h; cases h
    rw [if_neg hnv] at h
    split at h
    · cases h
    rename_i sub hget
    split at h
    · cases h
    rename_i inner hrec
    split at h
    · cases h
    rename_i more hrest
    have hl : inner ++ more = l := by cases h; rfl
    rcases List.mem_cons.mp hc with rfl | hcr
    · exact ⟨hnv, sub, inner, hget, hrec, fun m hm =>
        hl ▸ List.mem_append_left _ hm⟩
    · obtain ⟨hc1, sub', l', hget', hrec', hsub⟩ := ih hrest c hcr
      exact ⟨hc1, sub', l', hget', hrec', fun m hm =>
        hl ▸ List.mem_append_right _ (hsub m hm)⟩

theorem checkCandidates_sound {repo : Repo}
    {recurse : Group → List String → Except CheckErr (List String)}
    {g : Group} {visited : List String}
    (Hrec : ∀ c sub l', getGroup repo c = some sub →
      recurse sub (visited ++ [g.name]) = .ok l' →
      ∀ n ∈ l', Relation.ReflTransGen (subgroupEdge repo) c n) :
    ∀ {pending l},
      checkCandidates repo recurse g visited pending = .ok l →
      ∀ n ∈ l, ∃ c ∈ pending,
        Relation.ReflTransGen (subgroupEdge repo) c n := by
  intro pending
  induction pending with
  | nil =>
    intro l h n hn
    simp only [checkCandidates] at h
    cases h
    cases hn
  | cons c rest ih =>
    intro l h n hn
    simp only [checkCandidates] at h
    by_cases hnv : c ∈ visited
    · rw [if_pos hnv] at h; cases h
    rw [if_neg hnv] at h
    split at h
    · cases h
    rename_i sub hget
    split at h
    · cases h
    rename_i inner hrec
    split at h
    · cases h
    rename_i more hrest
    have hl : inner ++ more = l := by cases h; rfl
    rcases List.mem_append.mp (hl ▸ hn) with hin | hin
    · exact ⟨c, List.mem_cons_self c rest, Hrec c sub inner hget hrec n hin⟩
    · obtain ⟨c', hc', hr⟩ := ih hrest n hin
      exact ⟨c', List.mem_cons_of_mem c hc', hr⟩

theorem checkSubgroupNames_sound {repo : Repo} :
    ∀ fuel {g : Group} {visited l},
      checkSubgroupNames repo fuel g visited = .ok l →
      ∀ n ∈ l, (n = g.name ∧ g.name ∉ visited) ∨
        ∃ c ∈ candidateNames repo g,
          Relation.ReflTransGen (subgroupEdge repo) c n := by
  intro fuel
  induction fuel with
  | zero =>
    intro g visited l h n hn
    simp only [checkSubgroupNames] at h
    split at h
    · by_cases hgv : g.name ∈ visited
      · rw [if_pos hgv] at h
        cases h
        cases hn
      · rw [if_neg hgv] at h
        cases h
        rcases List.mem_singleton.mp hn with rfl
        exact Or.inl ⟨rfl, hgv⟩
    · cases h
  | succ fuel ih =>
    intro g visited l h n hn
    simp only [checkSubgroupNames] at h
    split at h
    · cases h
    · rename_i collected hcc
      have hl : collected ++ (if g.name ∈ visited then [] else [g.name]) = l := by
        cases h; rfl
      have Hrec : ∀ c sub l', getGroup repo c = some sub →
          checkSubgroupNames repo fuel sub (visited ++ [g.name]) = .ok l' →
          ∀ m ∈ l', Relation.ReflTransGen (subgroupEdge repo) c m := by
        intro c sub l' hget hrec m hm
        rcases ih hrec m hm with ⟨rfl, _⟩ | ⟨c', hc', hr⟩
        · rw [getGroup_name hget]
        · exact Relation.ReflTransGen.head ⟨sub, hget, hc'⟩ hr
      rcases List.mem_append.mp (hl ▸ hn) with hin | hin
      · obtain ⟨c, hc, hr⟩ := checkCandidates_sound Hrec hcc n hin
        exact Or.inr ⟨c, hc, hr⟩
      · by_cases hgv : g.name ∈ visited
        · rw [if_pos hgv] at hin; cases hin
        · rw [if_neg hgv] at hin
          rcases List.mem_singleton.mp hin with rfl
          exact Or.inl ⟨rfl, hgv⟩

theorem checkSubgroupNames_self_mem {repo : Repo} :
    ∀ fuel {g : Group} {visited l},
      checkSubgroupNames repo fuel g visited = .ok l →
      g.name ∉ visited → g.name ∈ l := by
  intro fuel
  cases fuel with
  | zero =>
    intro g visited l h hgv
    simp only [checkSubgroupNames] at h
    split at h
    · rw [if_neg hgv] at h
      cases h
      exact List.mem_singleton.mpr rfl
    · cases h
  | succ fuel =>
    intro g visited l h hgv
    simp only [checkSubgroupNames] at h
    split at h
    · cases h
    · rw [if_neg hgv] at h
      cases h
      exact List.mem_append_right _ (List.mem_singleton.mpr rfl)

theorem checkSubgroupNames_complete {repo : Repo} :
    ∀ fuel {g : Group} {visited l},
      checkSubgroupNames repo fuel g visited = .ok l →
      ∀ c ∈ candidateNames repo g, ∀ m,
        Relation.ReflTransGen (subgroupEdge repo) c m →
        m ∈ l ∨ m ∈ visited ∨ m = g.name := by
  intro fuel
  induction fuel with
  | zero =>
    intro g visited l h c hc m _
    simp only [checkSubgroupNames] at h
    split at h
    · rename_i hcand
      rw [hcand] at hc
      cases hc
    · cases h
  | succ fuel ih =>
    intro g visited l h c hc m hcm
    simp only [checkSubgroupNames] at h
    split at h
    · cases h
    rename_i collected hcc
    have hl : collected ++ (if g.name ∈ visited then [] else [g.name]) = l := by
      cases h; rfl
    obtain ⟨hc1, sub, lc, hget, hrec, hsub⟩ :=
      checkCandidates_ok_forall hcc c hc
    have hsubname : sub.name = c := getGroup_name hget
    have hcmem : c ∈ l ∨ c ∈ visited ∨ c = g.name := by
      by_cases hcg : c = g.name
      · exact Or.inr (Or.inr hcg)
      · have hnotin : sub.name ∉ visited ++ [g.name] := by
          rw [hsubname]
          intro hmm
          rcases List.mem_append.mp hmm with hmm | hmm
          · exact hc1 hmm
          · exact hcg (List.mem_singleton.mp hmm)
        have := checkSubgroupNames_self_mem fuel hrec hnotin
        rw [hsubname] at this
        exact Or.inl (hl ▸ List.mem_append_left _ (hsub c this))
    rcases Relation.ReflTransGen.cases_head hcm with rfl | ⟨x, hedge, hxm⟩
    · exact hcmem
    · obtain ⟨g', hg', hx⟩ := hedge
      have hgs : g' = sub := Option.some.inj (hg'.symm.trans hget)
      subst hgs
      rcases ih hrec x hx m hxm with hin | hin | hin
      · exact Or.inl (hl ▸ List.mem_append_left _ (hsub m hin))
      · rcases List.mem_append.mp hin with hin | hin
        · exact Or.inr (Or.inl hin)
        · exact Or.inr (Or.inr (List.mem_singleton.mp hin))
      · rw [hin, hsubname]
        exact hcmem

theorem checkCandidates_mem {repo : Repo}
    {recurse : Group → List String → Except CheckErr (List String)}
    {g : Group} {visited : List String} :
    ∀ {pending l},
      checkCandidates repo recurse g visited pending = .ok l →
      ∀ n ∈ l, ∃ c sub l', c ∈ pending ∧ getGroup repo c = some sub ∧
        recurse sub (visited ++ [g.name]) = .ok l' ∧ n ∈ l' := by
  intro pending
  induction pending with
  | nil =>
    intro l h n hn
    simp only [checkCandidates] at h
    cases h
    cases hn
  | cons c rest ih =>
    intro l h n hn
    simp only [checkCandidates] at h
    by_cases hnv : c ∈ visited
    · rw [if_pos hnv] at h; cases h
    rw [if_neg hnv] at h
    split at h
    · cases h
    rename_i sub hget
    split at h
    · cases h
    rename_i inner hrec
    split at h
    · cases h
    rename_i more hrest
    have hl : inner ++ more = l := by cases h; rfl
    rcases List.mem_append.mp (hl ▸ hn) with hin | hin
    · exact ⟨c, sub, inner, List.mem_cons_self c rest, hget, hrec, hin⟩
    · obtain ⟨c', sub', l', hc', hget', hrec', hn'⟩ := ih hrest n hin
      exact ⟨c', sub', l', List.mem_cons_of_mem c hc', hget', hrec', hn'⟩

theorem checkSubgroupNames_names_resolve {repo : Repo} :
    ∀ fuel {g : Group} {visited l},
      checkSubgroupNames repo fuel g visited = .ok l →
      ∀ n ∈ l, (getGroup repo n).isSome ∨
        (n = g.name ∧ g.name ∉ visited) := by
  intro fuel
  induction fuel with
  | zero =>
    intro g visited l h n hn
    simp only [checkSubgroupNames] at h
    split at h
    · by_cases hgv : g.name ∈ visited
      · rw [if_pos hgv] at h; cases h; cases hn
      · rw [if_neg hgv] at h
        cases h
        exact Or.inr ⟨List.mem_singleton.mp hn, hgv⟩
    · cases h
  | succ fuel ih =>
    intro g visited l h n hn
    simp only [checkSubgroupNames] at h
    split at h
    · cases h
    rename_i collected hcc
    have hl : collected ++ (if g.name ∈ visited then [] else [g.name]) = l := by
      cases h; rfl
    rcases List.mem_append.mp (hl ▸ hn) with hin | hin
    · obtain ⟨c, sub, l', _, hget, hrec, hn'⟩ := checkCandidates_mem hcc n hin
      rcases ih hrec n hn' with hs | ⟨rfl, _⟩
      · exact Or.inl hs
      · exact Or.inl (by rw [getGroup_self hget]; rfl)
    · by_cases hgv : g.name ∈ visited
      · rw [if_pos hgv] at hin; cases hin
      · rw [if_neg hgv] at hin
        exact Or.inr ⟨List.mem_singleton.mp hin, hgv⟩

theorem namesFinset_mem {repo : Repo} {g : Group} (h : g ∈ repo.groups) :
    g.name ∈ namesFinset repo := by
  unfold namesFinset
  exact List.mem_toFinset.mpr (List.mem_map_of_mem _ h)

theorem checkMeasure_lt {repo : Repo} {g sub : Group} {visited : List String}
    (hnv : sub.name ∉ visited)
    (hg : g.name ∈ visited ∨ g.name ∈ namesFinset repo) :
    checkMeasure repo sub (visited ++ [g.name]) <
      checkMeasure repo g visited := by
  unfold checkMeasure
  rw [List.toFinset_append]
  by_cases hgv : g.name ∈ visited
  · have hset : visited.toFinset ∪ [g.name].toFinset = visited.toFinset := by
      simp [Finset.union_eq_left, List.mem_toFinset.mpr hgv]
    rw [hset]
    have hns : sub.name ∉ visited ++ [g.name] := by
      intro hmm
      rcases List.mem_append.mp hmm with hmm | hmm
      · exact hnv hmm
      · exact hnv ((List.mem_singleton.mp hmm) ▸ hgv)
    rw [if_pos hgv, if_neg hns]
    omega
  · have hgR : g.name ∈ namesFinset repo := hg.resolve_left hgv
    have hset : namesFinset repo \ (visited.toFinset ∪ [g.name].toFinset) =
        (namesFinset repo \ visited.toFinset).erase g.name := by
      ext x
      simp only [Finset.mem_sdiff, Finset.mem_union, Finset.mem_erase,
        List.mem_toFinset, List.toFinset_cons, List.toFinset_nil,
        insert_emptyc_eq, Finset.mem_singleton]
      tauto
    rw [hset]
    have hmem : g.name ∈ namesFinset repo \ visited.toFinset :=
      Finset.mem_sdiff.mpr ⟨hgR, fun hx => hgv (List.mem_toFinset.mp hx)⟩
    have hcard : ((namesFinset repo \ visited.toFinset).erase g.name).card =
        (namesFinset repo \ visited.toFinset).card - 1 :=
      Finset.card_erase_of_mem hmem
    have hpos : 0 < (namesFinset repo \ visited.toFinset).card :=
      Finset.card_pos.mpr ⟨_, hmem⟩
    rw [hcard, if_neg hgv]
    split <;> omega

theorem checkCandidates_no_fuel_err {repo : Repo}
    {recurse : Group → List String → Except CheckErr (List String)}
    {g : Group} {visited : List String}
    (Hrec : ∀ c sub, getGroup repo c = some sub → c ∉ visited →
      recurse sub (visited ++ [g.name]) ≠ .error .outOfFuel) :
    ∀ pending,
      checkCandidates repo recurse g visited pending ≠
        .error .outOfFuel := by
  intro pending
  induction pending with
  | nil => intro heq; simp only [checkCandidates] at heq; cases heq
  | cons c rest ih =>
    intro heq
    simp only [checkCandidates] at heq
    by_cases hnv : c ∈ visited
    · rw [if_pos hnv] at heq; cases heq
    rw [if_neg hnv] at heq
    split at heq
    · cases heq
    rename_i sub hget
    split at heq
    · rename_i e hrec
      cases heq
      exact Hrec c sub hget hnv hrec
    rename_i inner hrec
    split at heq
    · rename_i e hrest
      cases heq
      exact ih hrest
    cases heq

theorem checkSubgroupNames_no_fuel_err {repo : Repo} :
    ∀ fuel {g : Group} {visited : List String},
      (g.name ∈ visited ∨ g ∈ repo.groups) →
      checkMeasure repo g visited < fuel →
      checkSubgroupNames repo fuel g visited ≠ .error .outOfFuel := by
  intro fuel
  induction fuel with
  | zero => intro g visited _ hm; omega
  | succ fuel ih =>
    intro g visited hginv hm heq
    simp only [checkSubgroupNames] at heq
    split at heq
    · rename_i e hcc
      cases heq
      refine checkCandidates_no_fuel_err ?_ _ hcc
      intro c sub hget hcnv
      have hsubname : sub.name = c := getGroup_name hget
      have hlt : checkMeasure repo sub (visited ++ [g.name]) <
          checkMeasure repo g visited := by
        refine checkMeasure_lt (hsubname ▸ hcnv) ?_
        rcases hginv with hv | hmemg
        · exact Or.inl hv
        · exact Or.inr (namesFinset_mem hmemg)
      exact ih (Or.inr (getGroup_mem hget)) (by omega)
    · cases heq

theorem checkMeasure_lt_fuelBound (repo : Repo) (g : Group)
    (visited : List String) : checkMeasure repo g visited < fuelBound repo := by
  unfold checkMeasure fuelBound
  have h1 : (namesFinset repo \ visited.toFinset).card ≤
      repo.groups.length := by
    calc (namesFinset repo \ visited.toFinset).card
        ≤ (namesFinset repo).card := Finset.card_le_card Finset.sdiff_subset
      _ ≤ (repo.groups.map (fun g => g.name)).length :=
          List.toFinset_card_le _
      _ = repo.groups.length := List.length_map _ _
  split <;> omega

theorem subgroupsNames_no_fuel_err (repo : Repo) (g : Group) :
    subgroupsNames repo g ≠ .error .outOfFuel :=
  checkSubgroupNames_no_fuel_err _ (Or.inl (List.mem_singleton.mpr rfl))
    (checkMeasure_lt_fuelBound repo g _)

theorem checkCandidates_ok {repo : Repo}
    {recurse : Group → List String → Except CheckErr (List String)}
    {g : Group} {visited : List String}
    (Hrec : ∀ c sub, getGroup repo c = some sub → c ∉ visited →
      c ∈ candidateNames repo g →
      ∃ l, recurse sub (visited ++ [g.name]) = .ok l)
    (Hnocyc : ∀ c ∈ candidateNames repo g, c ∉ visited)
    (Hresolve : ∀ c ∈ candidateNames repo g, (getGroup repo c).isSome) :
    ∀ pending, (∀ c ∈ pending, c ∈ candidateNames repo g) →
      ∃ l, checkCandidates repo recurse g visited pending = .ok l := by
  intro pending
  induction pending with
  | nil => intro _; exact ⟨[], rfl⟩
  | cons c rest ih =>
    intro hpend
    have hccand : c ∈ candidateNames repo g := hpend c (List.mem_cons_self c rest)
    have hnv : c ∉ visited := Hnocyc c hccand
    obtain ⟨sub, hget⟩ := Option.isSome_iff_exists.mp (Hresolve c hccand)
    obtain ⟨inner, hrec⟩ := Hrec c sub hget hnv hccand
    obtain ⟨more, hrest⟩ := ih (fun c' hc' => hpend c' (List.mem_cons_of_mem c hc'))
    refine ⟨inner ++ more, ?_⟩
    simp [checkCandidates, if_neg hnv, hget, hrec, hrest]

theorem checkSubgroupNames_ok_of_acyclic {repo : Repo}
    (hres : resolvesAll repo)
    (hacyc : ∀ x, ¬ Relation.TransGen (subgroupEdge repo) x x) :
    ∀ fuel {g : Group} {visited : List String},
      getGroup repo g.name = some g →
      (∀ m ∈ visited, Relation.ReflTransGen (subgroupEdge repo) m g.name) →
      checkMeasure repo g visited < fuel →
      ∃ l, checkSubgroupNames repo fuel g visited = .ok l := by
  intro fuel
  induction fuel with
  | zero => intro g visited _ _ hm; omega
  | succ fuel ih =>
    intro g visited hgg hVinv hm
    have Hnocyc : ∀ c ∈ candidateNames repo g, c ∉ visited := by
      intro c hc hcv
      exact hacyc c (Relation.TransGen.tail' (hVinv c hcv) ⟨g, hgg, hc⟩)
    have Hresolve : ∀ c ∈ candidateNames repo g, (getGroup repo c).isSome :=
      hres g.name g hgg
    have Hrec : ∀ c sub, getGroup repo c = some sub → c ∉ visited →
        c ∈ candidateNames repo g →
        ∃ l, checkSubgroupNames repo fuel sub (visited ++ [g.name]) = .ok l := by
      intro c sub hget hcnv hccand
      have hsubname : sub.name = c := getGroup_name hget
      refine ih (getGroup_self hget) ?_ ?_
      · intro m hmm
        rcases List.mem_append.mp hmm with hmm | hmm
        · exact Relation.ReflTransGen.tail (hVinv m hmm)
            ⟨g, hgg, hsubname ▸ hccand⟩
        · rw [List.mem_singleton.mp hmm]
          exact Relation.ReflTransGen.single ⟨g, hgg, hsubname ▸ hccand⟩
      · have hlt : checkMeasure repo sub (visited ++ [g.name]) <
            checkMeasure repo g visited :=
          checkMeasure_lt (hsubname ▸ hcnv)
            (Or.inr (namesFinset_mem (getGroup_mem hgg)))
        omega
    obtain ⟨collected, hcc⟩ :=
      checkCandidates_ok Hrec Hnocyc Hresolve (candidateNames repo g)
        (fun c hc => hc)
    exact ⟨collected ++ (if g.name ∈ visited then [] else [g.name]),
      by simp [checkSubgroupNames, hcc]⟩

theorem cycle_reachable_step {repo : Repo} {a : String}
    (h : ∃ c, Relation.ReflTransGen (subgroupEdge repo) a c ∧
      Relation.TransGen (subgroupEdge repo) c c) :
    ∃ x, subgroupEdge repo a x ∧
      ∃ c, Relation.ReflTransGen (subgroupEdge repo) x c ∧
        Relation.TransGen (subgroupEdge repo) c c := by
  obtain ⟨c, hrc, hcc⟩ := h
  rcases Relation.ReflTransGen.cases_head hrc with rfl | ⟨x, hax, hxc⟩
  · obtain ⟨b, hab, hba⟩ := Relation.TransGen.head'_iff.mp hcc
    exact ⟨b, hab, a, hba, hcc⟩
  · exact ⟨x, hax, c, hxc, hcc⟩

theorem checkSubgroupNames_not_ok_of_cycle {repo : Repo} :
    ∀ fuel {g : Group} {visited l},
      getGroup repo g.name = some g →
      (∃ c, Relation.ReflTransGen (subgroupEdge repo) g.name c ∧
        Relation.TransGen (subgroupEdge repo) c c) →
      checkSubgroupNames repo fuel g visited ≠ .ok l := by
  intro fuel
  induction fuel with
  | zero =>
    intro g visited l hgg hcyc heq
    obtain ⟨x, hgx, _⟩ := cycle_reachable_step hcyc
    obtain ⟨g', hg', hx⟩ := hgx
    have : g' = g := Option.some.inj (hg'.symm.trans hgg)
    subst this
    simp only [checkSubgroupNames] at heq
    split at heq
    · rename_i hcand
      rw [hcand] at hx
      cases hx
    · cases heq
  | succ fuel ih =>
    intro g visited l hgg hcyc heq
    simp only [checkSubgroupNames] at heq
    split at heq
    · cases heq
    rename_i collected hcc
    obtain ⟨x, hgx, hcyc'⟩ := cycle_reachable_step hcyc
    obtain ⟨g', hg', hx⟩ := hgx
    have : g' = g := Option.some.inj (hg'.symm.trans hgg)
    subst this
    obtain ⟨_, sub, l', hget, hrec, _⟩ := checkCandidates_ok_forall hcc x hx
    have hsubname : sub.name = x := getGroup_name hget
    exact ih (getGroup_self hget) (hsubname ▸ hcyc') hrec

theorem checkCandidates_no_missing {repo : Repo}
    {recurse : Group → List String → Except CheckErr (List String)}
    {g : Group} {visited : List String}
    (Hrec : ∀ c sub, getGroup repo c = some sub → c ∉ visited →
      ∀ a b, recurse sub (visited ++ [g.name]) ≠ .error (.noSuchGroup a b)) :
    ∀ pending, (∀ c ∈ pending, (getGroup repo c).isSome) →
      ∀ a b, checkCandidates repo recurse g visited pending ≠
        .error (.noSuchGroup a b) := by
  intro pending
  induction pending with
  | nil => intro _ a b heq; simp only [checkCandidates] at heq; cases heq
  | cons c rest ih =>
    intro hpend a b heq
    simp only [checkCandidates] at heq
    by_cases hnv : c ∈ visited
    · rw [if_pos hnv] at heq
      exact absurd heq (by simp)
    rw [if_neg hnv] at heq
    split at heq
    · rename_i hget
      have := hpend c (List.mem_cons_self c rest)
      rw [hget] at this
      cases this
    rename_i sub hget
    split at heq
    · rename_i e hrec
      cases heq
      exact Hrec c sub hget hnv a b hrec
    rename_i inner hrec
    split at heq
    · rename_i e hrest
      cases heq
      exact ih (fun c' hc' => hpend c' (List.mem_cons_of_mem c hc')) a b hrest
    cases heq

theorem checkSubgroupNames_no_missing {repo : Repo}
    (hres : resolvesAll repo) :
    ∀ fuel {g : Group} {visited : List String},
      getGroup repo g.name = some g →
      ∀ a b, checkSubgroupNames repo fuel g visited ≠
        .error (.noSuchGroup a b) := by
  intro fuel
  induction fuel with
  | zero =>
    intro g visited _ a b heq
    simp only [checkSubgroupNames] at heq
    split at heq
    · cases heq
    · exact absurd heq (by simp)
  | succ fuel ih =>
    intro g visited hgg a b heq
    simp only [checkSubgroupNames] at heq
    split at heq
    · rename_i e hcc
      cases heq
      refine checkCandidates_no_missing ?_ _ (hres g.name g hgg) a b hcc
      intro c sub hget _ a' b'
      exact ih (getGroup_self hget) a' b'
    · cases heq

theorem checkCandidates_cycle_chain {repo : Repo}
    {recurse : Group → List String → Except CheckErr (List String)}
    {g : Group} {visited : List String}
    (Hrec : ∀ c sub, getGroup repo c = some sub → c ∉ visited →
      ∀ n chain, recurse sub (visited ++ [g.name]) = .error (.cycle n chain) →
        chain.head? = some n ∧ chain.getLast? = some n) :
    ∀ pending n chain,
      checkCandidates repo recurse g visited pending =
        .error (.cycle n chain) →
      chain.head? = some n ∧ chain.getLast? = some n := by
  intro pending
  induction pending with
  | nil => intro n chain heq; simp only [checkCandidates] at heq; cases heq
  | cons c rest ih =>
    intro n chain heq
    simp only [checkCandidates] at heq
    by_cases hnv : c ∈ visited
    · rw [if_pos hnv] at heq
      have h1 : c = n ∧ buildErrorChain c g.name visited = chain := by
        cases heq; exact ⟨rfl, rfl⟩
      obtain ⟨rfl, rfl⟩ := h1
      exact ⟨buildErrorChain_head g.name hnv, buildErrorChain_last _ _ _⟩
    rw [if_neg hnv] at heq
    split at heq
    · cases heq
    rename_i sub hget
    split at heq
    · rename_i e hrec
      cases heq
      exact Hrec c sub hget hnv n chain hrec
    rename_i inner hrec
    split at heq
    · rename_i e hrest
      cases heq
      exact ih n chain hrest
    cases heq

theorem checkSubgroupNames_cycle_chain {repo : Repo} :
    ∀ fuel {g : Group} {visited : List String} {n chain},
      checkSubgroupNames repo fuel g visited = .error (.cycle n chain) →
      chain.head? = some n ∧ chain.getLast? = some n := by
  intro fuel
  induction fuel with
  | zero =>
    intro g visited n chain heq
    simp only [checkSubgroupNames] at heq
    split at heq
    · cases heq
    · exact absurd heq (by simp)
  | succ fuel ih =>
    intro g visited n chain heq
    simp only [checkSubgroupNames] at heq
    split at heq
    · rename_i e hcc
      cases heq
      refine checkCandidates_cycle_chain ?_ _ n chain hcc
      intro c sub hget _ n' chain' hrec
      exact ih hrec
    · cases heq

theorem acyclic_of_rank {repo : Repo} (rank : String → Nat)
    (h : ∀ a b, subgroupEdge repo a b → rank b < rank a) :
    ∀ x, ¬ Relation.TransGen (subgroupEdge repo) x x := by
  have hlt : ∀ a b, Relation.TransGen (subgroupEdge repo) a b →
      rank b < rank a := by
    intro a b htg
    induction htg with
    | single h1 => exact h _ _ h1
    | tail _ h1 ih => exact lt_trans (h _ _ h1) ih
  intro x hx
  exact lt_irrefl _ (hlt x x hx)

theorem resolvesAll_of_forall {repo : Repo}
    (h : ∀ g ∈ repo.groups, ∀ c ∈ candidateNames repo g,
      (getGroup repo c).isSome) : resolvesAll repo := by
  intro a g hget c hc
  exact h g (getGroup_mem hget) c hc

/-- C1: for every registry whose subgroup relation (explicit plus
pattern-derived names) is acyclic, the set of names produced by resolving a
root group's subgroups closure never contains the root's own name and
equals exactly the set of names reachable from the root by one or more
subgroup edges; moreover, when every subgroup reference resolves, the
resolution does produce such a set rather than raising. -/
theorem subgroups_acyclic_closure {repo : Repo} {root : Group}
    (hroot : getGroup repo root.name = some root)
    (hacyc : ∀ x, ¬ Relation.TransGen (subgroupEdge repo) x x) :
    (∀ l, subgroupsNames repo root = .ok l →
      root.name ∉ l ∧
        ∀ n, n ∈ l ↔ Relation.TransGen (subgroupEdge repo) root.name n) ∧
      (resolvesAll repo → ∃ l, subgroupsNames repo root = .ok l) := by
  constructor
  · intro l hok
    have hmem : ∀ n ∈ l, Relation.TransGen (subgroupEdge repo) root.name n := by
      intro n hn
      rcases checkSubgroupNames_sound _ hok n hn with ⟨rfl, hnv⟩ | ⟨c, hc, hr⟩
      · exact absurd (List.mem_singleton.mpr rfl) hnv
      · exact Relation.TransGen.head' ⟨root, hroot, hc⟩ hr
    constructor
    · intro hin
      exact hacyc root.name (hmem root.name hin)
    · intro n
      constructor
      · exact hmem n
      · intro htg
        obtain ⟨x, hrx, hxn⟩ := Relation.TransGen.head'_iff.mp htg
        obtain ⟨g', hg', hx⟩ := hrx
        have hgr : g' = root := Option.some.inj (hg'.symm.trans hroot)
        rw [hgr] at hx
        rcases checkSubgroupNames_complete _ hok x hx n hxn with
          hin | hin | hin
        · exact hin
        · rw [List.mem_singleton.mp hin] at htg
          exact absurd htg (hacyc root.name)
        · rw [hin] at htg
          exact absurd htg (hacyc root.name)
  · intro hres
    refine checkSubgroupNames_ok_of_acyclic hres hacyc _ hroot ?_
      (checkMeasure_lt_fuelBound repo root _)
    intro m hmm
    rw [List.mem_singleton.mp hmm]

def wA : Group := ⟨0, "A", [], ["B"], [], [], []⟩

def wB : Group := ⟨1, "B", [], ["C"], [], [], []⟩

def wC : Group := ⟨2, "C", [], [], [], [], []⟩

def wRepo : Repo := ⟨[wA, wB, wC], []⟩

def wRank : String → Nat := fun s => if s = "A" then 2 else if s = "B" then 1 else 0

theorem wRepo_acyclic :
    ∀ x, ¬ Relation.TransGen (subgroupEdge wRepo) x x := by
  refine acyclic_of_rank wRank ?_
  intro a b hedge
  obtain ⟨g, hg, hb⟩ := hedge
  have hname : g.name = a := getGroup_name hg
  have hmemg : g ∈ wRepo.groups := getGroup_mem hg
  fin_cases hmemg
  · have hb' : b ∈ candidateNames wRepo wA := hb
    have : b = "B" := by
      have heval : candidateNames wRepo wA = ["B"] := rfl
      rw [heval] at hb'
      exact List.mem_singleton.mp hb'
    subst this
    rw [← hname]
    decide
  · have hb' : b ∈ candidateNames wRepo wB := hb
    have : b = "C" := by
      have heval : candidateNames wRepo wB = ["C"] := rfl
      rw [heval] at hb'
      exact List.mem_singleton.mp hb'
    subst this
    rw [← hname]
    decide
  · have hb' : b ∈ candidateNames wRepo wC := hb
    have heval : candidateNames wRepo wC = [] := rfl
    rw [heval] at hb'
    cases hb'

/-- Witness for C1 on the concrete acyclic registry A → B → C: the
resolution yields exactly the reachable names C and B, and excludes the
root A. -/
theorem subgroups_acyclic_closure_witness :
    "A" ∉ (["C", "B"] : List String) ∧
      ∀ n, n ∈ (["C", "B"] : List String) ↔
        Relation.TransGen (subgroupEdge wRepo) "A" n :=
  (@subgroups_acyclic_closure wRepo wA rfl wRepo_acyclic).1 ["C", "B"] rfl

/-- Whether a resolution result is the subgroup-cycle configuration
error. -/
def isCycleError : Except CheckErr (List String) → Bool
  | .error (.cycle _ _) => true
  | _ => false

def cxX : Group := ⟨0, "X", [], ["D", "X"], [], [], []⟩

def cxRepo : Repo := ⟨[cxX], []⟩

/-- C2 counterexample: the registry holds the single group X with
subgroups ["D", "X"], so a cycle X → X is reachable from X, yet resolving
X's closure raises the missing-group error for the dangling reference "D"
processed first, not the subgroup-cycle error. -/
theorem subgroups_cycle_error_counterexample :
    Relation.TransGen (subgroupEdge cxRepo) "X" "X" ∧
      subgroupsNames cxRepo cxX = .error (.noSuchGroup "X" "D") ∧
      isCycleError (subgroupsNames cxRepo cxX) = false :=
  ⟨Relation.TransGen.single ⟨cxX, rfl, by decide⟩, rfl, rfl⟩

/-- C2 (amended): for every registry in which every explicit or
pattern-derived subgroup reference resolves, if a directed subgroup cycle
is reachable from a group X then resolving X's subgroups closure raises
the subgroup-cycle configuration error, and the diagnostic chain embedded
in the error starts and ends with the same repeated group name. -/
theorem subgroups_cycle_error {repo : Repo} {root : Group}
    (hroot : getGroup repo root.name = some root)
    (hres : resolvesAll repo)
    (hcyc : ∃ c, Relation.ReflTransGen (subgroupEdge repo) root.name c ∧
      Relation.TransGen (subgroupEdge repo) c c) :
    ∃ n chain, subgroupsNames repo root = .error (.cycle n chain) ∧
      chain.head? = some n ∧ chain.getLast? = some n := by
  cases hresult : subgroupsNames repo root with
  | ok l => exact absurd hresult (checkSubgroupNames_not_ok_of_cycle _ hroot hcyc)
  | error e =>
    cases e with
    | outOfFuel => exact absurd hresult (subgroupsNames_no_fuel_err repo root)
    | noSuchGroup a b =>
      exact absurd hresult (checkSubgroupNames_no_missing hres _ hroot a b)
    | cycle n chain =>
      obtain ⟨h1, h2⟩ := checkSubgroupNames_cycle_chain _ hresult
      exact ⟨n, chain, rfl, h1, h2⟩

def cwA : Group := ⟨0, "A", [], ["B"], [], [], []⟩

def cwB : Group := ⟨1, "B", [], ["C"], [], [], []⟩

def cwC : Group := ⟨2, "C", [], ["A"], [], [], []⟩

def cwRepo : Repo := ⟨[cwA, cwB, cwC], []⟩

theorem cwRepo_resolves : resolvesAll cwRepo := by
  refine resolvesAll_of_forall ?_
  decide

theorem cwRepo_cycle :
    ∃ c, Relation.ReflTransGen (subgroupEdge cwRepo) "A" c ∧
      Relation.TransGen (subgroupEdge cwRepo) c c := by
  refine ⟨"A", Relation.ReflTransGen.refl, ?_⟩
  have eAB : subgroupEdge cwRepo "A" "B" := ⟨cwA, rfl, by decide⟩
  have eBC : subgroupEdge cwRepo "B" "C" := ⟨cwB, rfl, by decide⟩
  have eCA : subgroupEdge cwRepo "C" "A" := ⟨cwC, rfl, by decide⟩
  exact Relation.TransGen.head eAB
    (Relation.TransGen.head eBC (Relation.TransGen.single eCA))

/-- Witness for C2 on the concrete three-cycle A → B → C → A with all
references resolving: the cycle error is raised and its chain
A → B → C → A starts and ends with "A". -/
theorem subgroups_cycle_error_witness :
    subgroupsNames cwRepo cwA = .error (.cycle "A" ["A", "B", "C", "A"]) ∧
      (["A", "B", "C", "A"] : List String).head? = some "A" ∧
      (["A", "B", "C", "A"] : List String).getLast? = some "A" := by
  obtain ⟨n, chain, h1, h2, h3⟩ :=
    @subgroups_cycle_error cwRepo cwA rfl cwRepo_resolves cwRepo_cycle
  have heval : subgroupsNames cwRepo cwA =
      .error (.cycle "A" ["A", "B", "C", "A"]) := rfl
  rw [heval] at h1
  cases h1
  exact ⟨heval, h2, h3⟩

/-- C5 (amended): resolution of the subgroup closure always terminates,
either by exhausting the reachable graph or by raising on an error; any
fuel budget of at least `2 * |groups| + 2` nested frames is never
exhausted.  The recursion depth is bounded by twice the registry size plus
two, not by the registry size: the root's name occupies two slots of the
visited path and a self-looping subgroup is entered once more before its
repeat is detected. -/
theorem subgroups_resolution_terminates (repo : Repo) (g : Group) :
    ∀ fuel, fuelBound repo ≤ fuel →
      checkSubgroupNames repo fuel g [g.name] ≠ .error .outOfFuel := by
  intro fuel hfuel
  apply checkSubgroupNames_no_fuel_err
  · exact Or.inl (List.mem_singleton.mpr rfl)
  · have := checkMeasure_lt_fuelBound repo g [g.name]
    omega

def dA : Group := ⟨0, "A", [], ["B"], [], [], []⟩

def dB : Group := ⟨1, "B", [], ["B"], [], [], []⟩

def dRepo : Repo := ⟨[dA, dB], []⟩

/-- C5 counterexample: in the registry {A → B, B → B} with 2 groups, fuel
for 2 nested frames is exhausted: the traversal A → B → B needs a third
frame (which then detects the cycle, as the run with fuel 3 shows), so the
recursion depth exceeds the number of groups in the registry. -/
theorem subgroups_depth_counterexample :
    dRepo.groups.length = 2 ∧
      checkSubgroupNames dRepo 2 dA ["A"] = .error .outOfFuel ∧
      checkSubgroupNames dRepo 3 dA ["A"] =
        .error (.cycle "B" ["B", "B", "B"]) :=
  ⟨rfl, rfl, rfl⟩

/-- Witness for C5 at the concrete registry A → B → C: the sufficient fuel
bound 2·3 + 2 = 8 is not exhausted. -/
theorem subgroups_resolution_terminates_witness :
    fuelBound wRepo ≤ 8 ∧
      checkSubgroupNames wRepo 8 wA ["A"] ≠ .error .outOfFuel :=
  ⟨by decide, subgroups_resolution_terminates wRepo wA 8 (by decide)⟩

/-- C10: every name yielded by a completed closure traversal (seeded with
the root's own name) is the name of a group present in the registry, so
the per-name registry lookup performed by the public `subgroups` accessor
never fails with a missing-group error. -/
theorem subgroups_names_resolve {repo : Repo} {root : Group}
    {l : List String} (hok : subgroupsNames repo root = .ok l) :
    ∀ n ∈ l, (getGroup repo n).isSome := by
  intro n hn
  rcases checkSubgroupNames_names_resolve _ hok n hn with hs | ⟨_, hnv⟩
  · exact hs
  · exact absurd (List.mem_singleton.mpr rfl) hnv

/-- Witness for C10 on the concrete registry A → B → C: the traversal
completes with names C and B, and both resolve in the registry. -/
theorem subgroups_names_resolve_witness :
    subgroupsNames wRepo wA = .ok ["C", "B"] ∧
      ∀ n ∈ (["C", "B"] : List String), (getGroup wRepo n).isSome :=
  ⟨rfl, @subgroups_names_resolve wRepo wA ["C", "B"] rfl⟩

/-- Canonical statedict values fed to the digest engine: either a list of
strings (the pre-sorted `sorted(names(...))`) or a mapping from member
names to digests. -/
inductive StateDict where
  | strList (l : List String) : StateDict
  | strDict (d : List (String × String)) : StateDict
deriving DecidableEq

/-- Key-then-value lexicographic order on mapping entries, used as the
canonical serialization order; with duplicate-free keys it coincides with
plain key order. -/
def pairLe (a b : String × String) : Prop :=
  a.1 < b.1 ∨ (a.1 = b.1 ∧ a.2 ≤ b.2)

instance : DecidableRel pairLe := fun a b => by
  unfold pairLe; infer_instance

instance : IsTotal (String × String) pairLe := by
  constructor
  intro a b
  rcases lt_trichotomy a.1 b.1 with h | h | h
  · exact Or.inl (Or.inl h)
  · rcases le_total a.2 b.2 with h2 | h2
    · exact Or.inl (Or.inr ⟨h, h2⟩)
    · exact Or.inr (Or.inr ⟨h.symm, h2⟩)
  · exact Or.inr (Or.inl h)

instance : IsTrans (String × String) pairLe := by
  constructor
  intro a b c hab hbc
  rcases hab with h1 | ⟨h1, h1v⟩
  · rcases hbc with h2 | ⟨h2, _⟩
    · exact Or.inl (lt_trans h1 h2)
    · exact Or.inl (h2 ▸ h1)
  · rcases hbc with h2 | ⟨h2, h2v⟩
    · exact Or.inl (h1 ▸ h2)
    · exact Or.inr ⟨h1.trans h2, le_trans h1v h2v⟩

instance : IsAntisymm (String × String) pairLe := by
  constructor
  intro a b hab hba
  rcases hab with h1 | ⟨h1, h1v⟩
  · rcases hba with h2 | ⟨h2, _⟩
    · exact absurd h2 (lt_asymm h1)
    · exact absurd h2 (ne_of_gt h1)
  · rcases hba with h2 | ⟨_, h2v⟩
    · exact absurd h1 (ne_of_gt h2)
    · exact Prod.ext h1 (le_antisymm h1v h2v)

/-- The Python `sorted(...)` on a list of strings: lexicographic order. -/
def sortedNames (l : List String) : List String :=
  List.insertionSort (fun a b => a ≤ b) l

/-- Modelled from the spec: `hash_statedict` (bundlewrap/utils/dicts.py,
not under src/) digests a statedict through a deterministic canonical
serialization that is order-independent and key-sorted for mappings;
digest equality is modelled as equality of canonical forms, so a list
keeps its order and a mapping's entries are sorted. -/
def hashStatedict : StateDict → StateDict
  | .strList l => .strList l
  | .strDict d => .strDict (List.insertionSort pairLe d)

/-- `Group.nodes` (group.py:135-139): every registry node whose
`in_group` test accepts this group's name. -/
def nodesOf (repo : Repo) (g : Group) : List Node :=
  repo.nodes.filter (fun nd => nd.inGroup g.name)

/-- Modelled from the spec: `utils.names` (not under src/) yields the name
of each item of a collection. -/
def namesOf (l : List Node) : List String :=
  l.map (fun nd => nd.name)

/-- `Group.group_membership_hash` (group.py:123-124):
`hash_statedict(sorted(names(self.nodes)))`. -/
def groupMembershipHash (repo : Repo) (g : Group) : StateDict :=
  hashStatedict (.strList (sortedNames (namesOf (nodesOf repo g))))

/-- `Group.cdict` (group.py:116-121): the mapping from each member node's
name to that node's own state digest, in node iteration order. -/
def cdict (repo : Repo) (g : Group) : List (String × String) :=
  (nodesOf repo g).map (fun nd => (nd.name, nd.nodeHash))

/-- `Group.hash` (group.py:126-127): `hash_statedict(self.cdict)`. -/
def groupHash (repo : Repo) (g : Group) : StateDict :=
  hashStatedict (.strDict (cdict repo g))

theorem sortedNames_eq_of_perm {l1 l2 : List String} (h : l1.Perm l2) :
    sortedNames l1 = sortedNames l2 :=
  List.eq_of_perm_of_sorted
    ((List.perm_insertionSort _ l1).trans
      (h.trans (List.perm_insertionSort _ l2).symm))
    (List.sorted_insertionSort _ l1) (List.sorted_insertionSort _ l2)

theorem nodesOf_perm {r1 r2 : Repo} (g : Group)
    (h : r1.nodes.Perm r2.nodes) : (nodesOf r1 g).Perm (nodesOf r2 g) :=
  h.filter _

theorem namesOf_nodesOf_nodup {repo : Repo} (g : Group)
    (h : (namesOf repo.nodes).Nodup) : (namesOf (nodesOf repo g)).Nodup :=
  h.sublist ((List.filter_sublist repo.nodes).map _)

/-- C6: `group_membership_hash` is invariant under any permutation of the
registry's node iteration order; and for registries whose node names are
duplicate-free, the digest is unchanged if and only if the set of member
node names is unchanged. -/
theorem group_membership_hash_spec (r1 r2 : Repo) (g : Group) :
    (r1.nodes.Perm r2.nodes →
      groupMembershipHash r1 g = groupMembershipHash r2 g) ∧
      ((namesOf r1.nodes).Nodup → (namesOf r2.nodes).Nodup →
        (groupMembershipHash r1 g = groupMembershipHash r2 g ↔
          (namesOf (nodesOf r1 g)).toFinset =
            (namesOf (nodesOf r2 g)).toFinset)) := by
  constructor
  · intro hperm
    have hp : (namesOf (nodesOf r1 g)).Perm (namesOf (nodesOf r2 g)) :=
      (nodesOf_perm g hperm).map _
    simp only [groupMembershipHash, hashStatedict]
    rw [sortedNames_eq_of_perm hp]
  · intro hnd1 hnd2
    constructor
    · intro heq
      simp only [groupMembershipHash, hashStatedict] at heq
      injection heq with hsort
      have p1 : (sortedNames (namesOf (nodesOf r1 g))).Perm
          (namesOf (nodesOf r1 g)) := List.perm_insertionSort _ _
      have p2 : (sortedNames (namesOf (nodesOf r2 g))).Perm
          (namesOf (nodesOf r2 g)) := List.perm_insertionSort _ _
      have hperm : (namesOf (nodesOf r1 g)).Perm (namesOf (nodesOf r2 g)) :=
        p1.symm.trans (by rw [hsort]; exact p2)
      exact List.toFinset_eq_of_perm _ _ hperm
    · intro hfin
      simp only [groupMembershipHash, hashStatedict]
      rw [sortedNames_eq_of_perm (List.perm_of_nodup_nodup_toFinset_eq
        (namesOf_nodesOf_nodup g hnd1) (namesOf_nodesOf_nodup g hnd2) hfin)]

theorem pairSort_eq_of_perm {l1 l2 : List (String × String)}
    (h : l1.Perm l2) :
    List.insertionSort pairLe l1 = List.insertionSort pairLe l2 :=
  List.eq_of_perm_of_sorted
    ((List.perm_insertionSort _ l1).trans
      (h.trans (List.perm_insertionSort _ l2).symm))
    (List.sorted_insertionSort _ l1) (List.sorted_insertionSort _ l2)

theorem eq_of_mem_nodup_keys :
    ∀ {l : List (String × String)}, (l.map Prod.fst).Nodup →
      ∀ {k v1 v2}, (k, v1) ∈ l → (k, v2) ∈ l → v1 = v2 := by
  intro l
  induction l with
  | nil => intro _ k v1 v2 h1; cases h1
  | cons a rest ih =>
    intro hnd k v1 v2 h1 h2
    rw [List.map_cons, List.nodup_cons] at hnd
    rcases List.mem_cons.mp h1 with h1e | h1r
    · rcases List.mem_cons.mp h2 with h2e | h2r
      · exact congrArg Prod.snd (h1e.trans h2e.symm)
      · exfalso
        apply hnd.1
        have hk : k ∈ List.map Prod.fst rest :=
          List.mem_map_of_mem Prod.fst h2r
        rw [← h1e]
        exact hk
    · rcases List.mem_cons.mp h2 with h2e | h2r
      · exfalso
        apply hnd.1
        have hk : k ∈ List.map Prod.fst rest :=
          List.mem_map_of_mem Prod.fst h1r
        rw [← h2e]
        exact hk
      · exact ih hnd.2 h1r h2r

theorem cdict_keys (repo : Repo) (g : Group) :
    (cdict repo g).map Prod.fst = namesOf (nodesOf repo g) := by
  simp [cdict, namesOf, List.map_map, Function.comp]

/-- C7: the state hash is the canonical, order-independent, key-sorted
digest of the mapping from each member node's name to that node's own
state digest: it is invariant under any permutation of the member nodes'
iteration order (holding membership and per-node digests fixed), and, for
duplicate-free member names, it changes whenever a single member's state
digest changes while membership is held fixed. -/
theorem group_hash_spec (r1 r2 : Repo) (g : Group) :
    (r1.nodes.Perm r2.nodes → groupHash r1 g = groupHash r2 g) ∧
      (∀ k v1 v2, (namesOf (nodesOf r2 g)).Nodup →
        (k, v1) ∈ cdict r1 g → (k, v2) ∈ cdict r2 g → v1 ≠ v2 →
        groupHash r1 g ≠ groupHash r2 g) := by
  constructor
  · intro hperm
    have hp : (cdict r1 g).Perm (cdict r2 g) :=
      (nodesOf_perm g hperm).map _
    simp only [groupHash, hashStatedict]
    rw [pairSort_eq_of_perm hp]
  · intro k v1 v2 hnd2 h1 h2 hne heq
    simp only [groupHash, hashStatedict] at heq
    injection heq with hsort
    have p1 : (List.insertionSort pairLe (cdict r1 g)).Perm (cdict r1 g) :=
      List.perm_insertionSort _ _
    have p2 : (List.insertionSort pairLe (cdict r2 g)).Perm (cdict r2 g) :=
      List.perm_insertionSort _ _
    have hperm : (cdict r1 g).Perm (cdict r2 g) :=
      p1.symm.trans (by rw [hsort]; exact p2)
    have h1' : (k, v1) ∈ cdict r2 g := hperm.mem_iff.mp h1
    have hndk : ((cdict r2 g).map Prod.fst).Nodup := by
      rw [cdict_keys]; exact hnd2
    exact hne (eq_of_mem_nodup_keys hndk h1' h2)

def wn1 : Node := ⟨"n1", fun _ => true, "h1"⟩

def wn2 : Node := ⟨"n2", fun _ => true, "h2"⟩

def wn2x : Node := ⟨"n2", fun _ => true, "h2x"⟩

def wg : Group := ⟨0, "G", [], [], [], [], []⟩

def wr1 : Repo := ⟨[], [wn1, wn2]⟩

def wr2 : Repo := ⟨[], [wn2, wn1]⟩

def wr3 : Repo := ⟨[], [wn1, wn2x]⟩

/-- Witness for C6: reversing the node iteration order of a concrete
two-node registry leaves the membership digest unchanged. -/
theorem group_membership_hash_spec_witness :
    wr1.nodes.Perm wr2.nodes ∧
      groupMembershipHash wr1 wg = groupMembershipHash wr2 wg :=
  have hperm : wr1.nodes.Perm wr2.nodes := List.Perm.swap wn2 wn1 []
  ⟨hperm, (group_membership_hash_spec wr1 wr2 wg).1 hperm⟩

/-- Witness for C7: changing the digest of member n2 from "h2" to "h2x"
while holding membership fixed changes the state hash. -/
theorem group_hash_spec_witness :
    ("n2", "h2") ∈ cdict wr1 wg ∧ ("n2", "h2x") ∈ cdict wr3 wg ∧
      groupHash wr1 wg ≠ groupHash wr3 wg :=
  ⟨by decide, by decide,
    (group_hash_spec wr1 wr3 wg).2 "n2" "h2" "h2x" (by decide) (by decide)
      (by decide) (by decide)⟩

/-- C4: for every group and registry with duplicate-free, identity-
determining group names that contain the group, the pattern-derived
subgroup names are exactly the names of all registry groups other than the
group itself whose name matches at least one of its compiled subgroup
patterns; the group's own name is never included, even when it matches one
of the group's own patterns. -/
theorem subgroup_names_from_patterns_spec {repo : Repo} {g : Group}
    (hg : g ∈ repo.groups)
    (hinj : ∀ h1 ∈ repo.groups, ∀ h2 ∈ repo.groups,
      h1.name = h2.name → h1.objId = h2.objId) :
    g.name ∉ subgroupNamesFromPatterns repo g ∧
      ∀ n, n ∈ subgroupNamesFromPatterns repo g ↔
        ∃ h ∈ repo.groups, h.name = n ∧ h.objId ≠ g.objId ∧
          ∃ pat ∈ g.immediate_subgroup_patterns, pat h.name = true := by
  have hmemiff : ∀ n, n ∈ subgroupNamesFromPatterns repo g ↔
      ∃ h ∈ repo.groups, h.name = n ∧ h.objId ≠ g.objId ∧
        ∃ pat ∈ g.immediate_subgroup_patterns, pat h.name = true := by
    intro n
    unfold subgroupNamesFromPatterns
    constructor
    · intro hn
      obtain ⟨l, hl, hnl⟩ := List.mem_flatten.mp hn
      obtain ⟨pat, hpat, rfl⟩ := List.mem_map.mp hl
      obtain ⟨h, hh, rfl⟩ := List.mem_map.mp hnl
      have hh' := List.mem_filter.mp hh
      have hcond := hh'.2
      rw [Bool.and_eq_true] at hcond
      have h2 : h.objId ≠ g.objId := by simpa using hcond.2
      exact ⟨h, hh'.1, rfl, h2, pat, hpat, hcond.1⟩
    · rintro ⟨h, hhmem, rfl, hobj, pat, hpat, hmatch⟩
      refine List.mem_flatten.mpr ⟨_, List.mem_map.mpr ⟨pat, hpat, rfl⟩, ?_⟩
      refine List.mem_map.mpr ⟨h, List.mem_filter.mpr ⟨hhmem, ?_⟩, rfl⟩
      simp [hmatch, hobj]
  refine ⟨?_, hmemiff⟩
  intro hin
  obtain ⟨h, hhmem, hname, hobj, _⟩ := (hmemiff g.name).mp hin
  exact hobj (hinj h hhmem g hg hname)

def pwPat : String → Bool := fun s => s == "galpha" || s == "gbeta"

def pwG : Group := ⟨0, "galpha", [], [], [pwPat], [], []⟩

def pwH : Group := ⟨1, "gbeta", [], [], [], [], []⟩

def pwRepo : Repo := ⟨[pwG, pwH], []⟩

/-- Witness for C4: pwG's pattern matches its own name "galpha" as well as
"gbeta", yet only the other group's name is produced. -/
theorem subgroup_names_from_patterns_spec_witness :
    pwPat "galpha" = true ∧
      subgroupNamesFromPatterns pwRepo pwG = ["gbeta"] ∧
      "galpha" ∉ subgroupNamesFromPatterns pwRepo pwG := by
  have hg : pwG ∈ pwRepo.groups := List.mem_cons_self pwG [pwH]
  have hinj : ∀ h1 ∈ pwRepo.groups, ∀ h2 ∈ pwRepo.groups,
      h1.name = h2.name → h1.objId = h2.objId := by
    intro h1 h1m h2 h2m heq
    rcases List.mem_cons.mp h1m with rfl | h1m' <;>
      rcases List.mem_cons.mp h2m with rfl | h2m'
    · rfl
    · rcases List.mem_singleton.mp h2m' with rfl
      exact absurd heq (by decide)
    · rcases List.mem_singleton.mp h1m' with rfl
      exact absurd heq (by decide)
    · rcases List.mem_singleton.mp h1m' with rfl
      rcases List.mem_singleton.mp h2m' with rfl
      rfl
  exact ⟨by decide, rfl,
    (@subgroup_names_from_patterns_spec pwRepo pwG hg hinj).1⟩

/-- A constructed attribute dictionary: the infodict fields that
`Group.__init__` reads (group.py:80-105).  Well-typedness of the fields
models a dictionary that passes `validate_dict`. -/
structure InfoDict where
  bundles : List String
  subgroups : List String
  subgroup_patterns : List String
  member_patterns : List String
  metadata : List (String × String)

/-- Errors of `Group.__init__`: the invalid-name `RepositoryError`
(group.py:84-85), and the raw `re.error` escaping from `re.compile` at
group.py:93-101, which carries the offending pattern but is raised outside
the `error_context(group_name=...)` block (that block closes after
`validate_dict` at group.py:87-88) and is not a `RepositoryError`. -/
inductive InitError where
  | invalidName (groupName : String) : InitError
  | reCompileError (patternStr : String) : InitError
deriving DecidableEq

/-- Which group name the error message reports, if any: the invalid-name
error interpolates the group name; the raw `re.error` does not mention the
group. -/
def InitError.reportedGroup : InitError → Option String
  | .invalidName n => some n
  | .reCompileError _ => none

/-- Whether the error is a `RepositoryError` (a configuration error), as
opposed to a raw exception such as `re.error`. -/
def InitError.isRepositoryError : InitError → Bool
  | .invalidName _ => true
  | .reCompileError _ => false

/-- The set comprehension `{re.compile(pattern) for pattern in ...}`
(group.py:93-96 and 98-101): compile each pattern string, raising the
`re.error` of the first failure. -/
def compilePatterns (compile : String → Option (String → Bool)) :
    List String → Except InitError (List (String → Bool))
  | [] => .ok []
  | p :: rest =>
    match compile p with
    | none => .error (.reCompileError p)
    | some f =>
      match compilePatterns compile rest with
      | .error e => .error e
      | .ok fs => .ok (f :: fs)

/-- `Group.__init__(group_name, infodict)` (group.py:80-105), parametrised
by the external name validator and the regular-expression compiler, and by
the allocation identity of the new object.  `validate_dict` (not under
src/) is modelled as succeeding on the well-typed `InfoDict`. -/
def groupInit (validName : String → Bool)
    (compile : String → Option (String → Bool)) (objId : Nat)
    (group_name : String) (infodict : InfoDict) : Except InitError Group :=
  if !(validName group_name) then .error (.invalidName group_name)
  else
    match compilePatterns compile infodict.subgroup_patterns with
    | .error e => .error e
    | .ok subPats =>
      match compilePatterns compile infodict.member_patterns with
      | .error e => .error e
      | .ok memPats =>
        .ok ⟨objId, group_name, infodict.bundles, infodict.subgroups,
          subPats, memPats, infodict.metadata⟩

theorem compilePatterns_ok {compile : String → Option (String → Bool)} :
    ∀ {ps : List String}, (∀ p ∈ ps, (compile p).isSome) →
      ∃ fs, compilePatterns compile ps = .ok fs := by
  intro ps
  induction ps with
  | nil => intro _; exact ⟨[], rfl⟩
  | cons q rest ih =>
    intro hall
    obtain ⟨f, hf⟩ := Option.isSome_iff_exists.mp
      (hall q (List.mem_cons_self q rest))
    obtain ⟨fs, hfs⟩ := ih (fun p hp => hall p (List.mem_cons_of_mem q hp))
    exact ⟨f :: fs, by simp [compilePatterns, hf, hfs]⟩

theorem compilePatterns_err {compile : String → Option (String → Bool)} :
    ∀ {ps : List String}, (∃ p ∈ ps, compile p = none) →
      ∃ p ∈ ps, compile p = none ∧
        compilePatterns compile ps = .error (.reCompileError p) := by
  intro ps
  induction ps with
  | nil => rintro ⟨p, hp, _⟩; cases hp
  | cons q rest ih =>
    rintro ⟨p, hp, hnone⟩
    cases hq : compile q with
    | none =>
      exact ⟨q, List.mem_cons_self q rest, hq, by simp [compilePatterns, hq]⟩
    | some f =>
      have hpr : p ∈ rest := by
        rcases List.mem_cons.mp hp with rfl | h
        · rw [hq] at hnone; cases hnone
        · exact h
      obtain ⟨p', hp', hnone', herr⟩ := ih ⟨p, hpr, hnone⟩
      exact ⟨p', List.mem_cons_of_mem q hp', hnone',
        by simp [compilePatterns, hq, herr]⟩

def badCompile : String → Option (String → Bool) :=
  fun s => if s = "(" then none else some (fun _ => false)

def badDict : InfoDict := ⟨[], [], ["("], [], []⟩

/-- C8 counterexample: constructing a group named "mygroup" whose
subgroup_patterns contain the uncompilable pattern "(" fails with the raw
pattern-compilation error, which reports the pattern but is not a
configuration (repository) error and does not report which group failed:
the compiles at group.py:93-101 run outside the
`error_context(group_name=...)` block that closes at group.py:88. -/
theorem group_init_pattern_error_counterexample :
    groupInit (fun _ => true) badCompile 0 "mygroup" badDict =
        .error (.reCompileError "(") ∧
      InitError.reportedGroup (.reCompileError "(") = none ∧
      InitError.isRepositoryError (.reCompileError "(") = false :=
  ⟨rfl, rfl, rfl⟩

/-- C8 (amended): for every group name passing validation and attribute
dictionary in which some subgroup or member pattern fails to compile,
construction fails and the raised error identifies the failing pattern;
but the error is the raw pattern-compilation error: it is not a
configuration error and it does not report which group failed. -/
theorem group_init_pattern_error {validName : String → Bool}
    {compile : String → Option (String → Bool)} {objId : Nat}
    {group_name : String} {d : InfoDict}
    (hvalid : validName group_name = true)
    (hbad : ∃ p ∈ d.subgroup_patterns ++ d.member_patterns,
      compile p = none) :
    ∃ p, compile p = none ∧
      p ∈ d.subgroup_patterns ++ d.member_patterns ∧
      groupInit validName compile objId group_name d =
        .error (.reCompileError p) ∧
      InitError.reportedGroup (.reCompileError p) = none ∧
      InitError.isRepositoryError (.reCompileError p) = false := by
  by_cases hsub : ∃ p ∈ d.subgroup_patterns, compile p = none
  · obtain ⟨p, hmem, hnone, herr⟩ := compilePatterns_err hsub
    exact ⟨p, hnone, List.mem_append_left _ hmem,
      by simp [groupInit, hvalid, herr], rfl, rfl⟩
  · push_neg at hsub
    have hallsub : ∀ p ∈ d.subgroup_patterns, (compile p).isSome := by
      intro p hp
      cases hcp : compile p with
      | none => exact absurd hcp (hsub p hp)
      | some f => rfl
    obtain ⟨fs, hok⟩ := compilePatterns_ok hallsub
    have hmembad : ∃ p ∈ d.member_patterns, compile p = none := by
      obtain ⟨p, hp, hnone⟩ := hbad
      rcases List.mem_append.mp hp with hp' | hp'
      · exact absurd hnone (hsub p hp')
      · exact ⟨p, hp', hnone⟩
    obtain ⟨p, hmem, hnone, herr⟩ := compilePatterns_err hmembad
    exact ⟨p, hnone, List.mem_append_right _ hmem,
      by simp [groupInit, hvalid, hok, herr], rfl, rfl⟩

/-- Witness for C8 (amended) at the concrete bad dictionary: the result is
the raw compile error for "(", reporting no group. -/
theorem group_init_pattern_error_witness :
    badCompile "(" = none ∧
      groupInit (fun _ => true) badCompile 0 "mygroup" badDict =
        .error (.reCompileError "(") ∧
      InitError.reportedGroup (.reCompileError "(") = none := by
  obtain ⟨p, h1, h2, h3, h4, h5⟩ :=
    @group_init_pattern_error (fun _ => true) badCompile 0 "mygroup" badDict
      rfl ⟨"(", by decide, rfl⟩
  have heval : groupInit (fun _ => true) badCompile 0 "mygroup" badDict =
      .error (.reCompileError "(") := rfl
  rw [heval] at h3
  cases h3
  exact ⟨h1, heval, h4⟩

/-- Python `==` between Group instances: the class defines no `__eq__`, so
object identity is compared (group.py:107-108 define `__lt__` only). -/
def groupPyEq (g h : Group) : Bool :=
  g.objId == h.objId

/-- `Group.__lt__` (group.py:107-108): comparison of names. -/
def groupPyLt (g h : Group) : Bool :=
  decide (g.name < h.name)

def e9a : Group := ⟨0, "same", [], [], [], [], []⟩

def e9b : Group := ⟨1, "same", [], [], [], [], []⟩

/-- C9 counterexample: two distinct Group instances with the same name
"same" are not equal under Python's `==`, refuting that equality is
determined by names only. -/
theorem group_eq_by_name_counterexample :
    e9a.name = e9b.name ∧ groupPyEq e9a e9b = false :=
  ⟨rfl, rfl⟩

/-- C9 (amended): ordering between Group instances is determined by their
names only (lexicographic on the name string); equality, however, is
object identity, since the class defines `__lt__` but no `__eq__`: two
groups are `==` exactly when they are the same object, not when their
names agree. -/
theorem group_ordering_semantics (g h : Group) :
    (groupPyLt g h = true ↔ g.name < h.name) ∧
      (groupPyEq g h = true ↔ g.objId = h.objId) := by
  constructor
  · simp [groupPyLt]
  · simp [groupPyEq]

end BW
